import Mathlib

/-!
Shallow embedding of the event discovery and enrichment pipeline of the
Events-Scout repository (`src/App.tsx`, `src/services/geminiService.ts`,
and the type declarations), together with proofs settling the frozen
claims about it.

JavaScript strings are modelled as Lean `String`; `toLowerCase` is
modelled on the ASCII range (all case-insensitive comparisons in the
pipeline involve ASCII letters), `trim` by `String.trim`, numbers by `ℚ`,
possibly-absent fields by `Option`, and a thrown `TypeError` by an
`Option`-valued result.  The cooperative three-worker enrichment pool is
modelled as a small-step state machine whose atomic steps are the
synchronous segments between `await` suspension points.
-/

/-- Containment of `sub` as a contiguous run of `l`, tried at every
start position. -/
def listContains (sub : List Char) : List Char → Bool
  | [] => sub.isEmpty
  | c :: cs => List.isPrefixOf sub (c :: cs) || listContains sub cs

/-- Substring containment, modelling the case-sensitive JavaScript
`String.prototype.includes`. -/
def jsIncludes (s sub : String) : Bool :=
  listContains sub.data s.data

/-- ASCII lowercasing, modelling `String.prototype.toLowerCase` (the
pipeline only compares ASCII letters case-insensitively). -/
def jsToLower (s : String) : String := ⟨s.data.map Char.toLower⟩

/-- Whitespace trimming at both ends, modelling `String.prototype.trim`. -/
def jsTrim (s : String) : String :=
  ⟨((s.data.dropWhile Char.isWhitespace).reverse.dropWhile Char.isWhitespace).reverse⟩

/-- Text before the first space, modelling `s.split(' ')[0]`. -/
def firstWord (s : String) : String :=
  ⟨s.data.takeWhile (fun c => !(c == ' '))⟩

/-- Base64 alphabet used by `btoa`. -/
def b64Alphabet : List Char :=
  "ABCDEFGHIJKLMNOPQRSTUVWXYZabcdefghijklmnopqrstuvwxyz0123456789+/".data

/-- Character of the base64 alphabet at a sextet value. -/
def b64Char (n : Nat) : Char := b64Alphabet.getD n '?'

/-- Base64 encoding of a byte sequence, modelling `btoa` applied to a
binary string (each input is a byte value, below 256). -/
def b64encode : List Nat → List Char
  | [] => []
  | [b0] => [b64Char (b0 / 4), b64Char (b0 % 4 * 16), '=', '=']
  | [b0, b1] =>
      [b64Char (b0 / 4), b64Char (b0 % 4 * 16 + b1 / 16), b64Char (b1 % 16 * 4), '=']
  | b0 :: b1 :: b2 :: rest =>
      b64Char (b0 / 4) :: b64Char (b0 % 4 * 16 + b1 / 16) ::
      b64Char (b1 % 16 * 4 + b2 / 64) :: b64Char (b2 % 64) :: b64encode rest

/-- UTF-8 encoding of one Unicode scalar value, as a list of byte values. -/
def utf8EncodeChar (c : Char) : List Nat :=
  if c.toNat < 128 then [c.toNat]
  else if c.toNat < 2048 then [192 + c.toNat / 64, 128 + c.toNat % 64]
  else if c.toNat < 65536 then
    [224 + c.toNat / 4096, 128 + c.toNat / 64 % 64, 128 + c.toNat % 64]
  else
    [240 + c.toNat / 262144, 128 + c.toNat / 4096 % 64,
     128 + c.toNat / 64 % 64, 128 + c.toNat % 64]

/-- UTF-8 byte sequence of a list of characters, modelling
`unescape(encodeURIComponent(s))` read as a byte string. -/
def utf8Bytes (cs : List Char) : List Nat := cs.flatMap utf8EncodeChar

/-- Composed identity key `name.toLowerCase().trim() + "-" + date` from
`generateEventId` in `App.tsx`. -/
def composedKey (name date : String) : String :=
  jsTrim (jsToLower name) ++ "-" ++ date

/-- Event identity, modelling
`btoa(unescape(encodeURIComponent(cmposed)))` from `generateEventId` in
`App.tsx`: base64 of the UTF-8 bytes of the composed key. -/
def generateEventId (name date : String) : String :=
  ⟨b64encode (utf8Bytes (composedKey name date).data)⟩

/-- Countries of the `Country` enumeration in `types.ts`. -/
inductive Country where
  | Thailand
  | Malaysia
  | Singapore
  | Indonesia
  | Philippines
  | Vietnam
  | UAE
  | Germany
  | Australia
  | Europe
deriving DecidableEq, Repr

/-- String values of the `Venue` enumeration in `types.ts`, in declaration
order (`Object.values(Venue)` preserves this order). -/
def venueValues : List String :=
  [ "Impact Arena & Exhibition Center"
  , "BITEC Bangna"
  , "Queen Sirikit National Convention Center (QSNCC)"
  , "Kuala Lumpur Convention Centre (KLCC)"
  , "MITEC"
  , "Setia SPICE Convention Centre"
  , "Penang Waterfront Convention Centre (PWCC)"
  , "Singapore EXPO"
  , "Marina Bay Sands Convention Centre"
  , "Jakarta Convention Center"
  , "Jakarta International Expo (JIExpo)"
  , "Indonesia Convention Exhibition (ICE BSD)"
  , "SMX Convention Center"
  , "World Trade Center Metro Manila"
  , "Saigon Exhibition and Convention Center (SECC)"
  , "International Centre for Exhibition (I.C.E ) Hanoi"
  , "Dubai World Trade Centre"
  , "Messe Frankfurt"
  , "Messe Berlin"
  , "Messe München"
  , "Koelnmesse"
  , "ICC Sydney"
  , "Melbourne Convention and Exhibition Centre"
  , "Fira Barcelona"
  , "Paris Nord Villepinte"
  , "RAI Amsterdam" ]

/-- Country-specific venue filter from `searchEventList` in
`geminiService.ts` (case-sensitive `includes` checks, one clause per
country). -/
def venueFilter (c : Country) (v : String) : Bool :=
  match c with
  | .Thailand => jsIncludes v "Impact" || jsIncludes v "BITEC" || jsIncludes v "Queen Sirikit"
  | .Malaysia => jsIncludes v "Kuala Lumpur" || jsIncludes v "MITEC" || jsIncludes v "SPICE" || jsIncludes v "Penang"
  | .Singapore => jsIncludes v "Singapore EXPO" || jsIncludes v "Marina Bay"
  | .Indonesia => jsIncludes v "Jakarta" || jsIncludes v "Indonesia Convention"
  | .Philippines => jsIncludes v "SMX" || jsIncludes v "World Trade Center"
  | .Vietnam => jsIncludes v "Saigon" || jsIncludes v "Hanoi"
  | .UAE => jsIncludes v "Dubai"
  | .Germany => jsIncludes v "Messe" || jsIncludes v "Koelnmesse"
  | .Australia => jsIncludes v "Sydney" || jsIncludes v "Melbourne"
  | .Europe => jsIncludes v "Fira" || jsIncludes v "Paris" || jsIncludes v "RAI" || jsIncludes v "Messe"

/-- Venues valid for a country: `Object.values(Venue).filter(...)` in
`searchEventList`. -/
def countryVenues (c : Country) : List String :=
  venueValues.filter (venueFilter c)

/-- Company record (`CompanyInfo` in `types.ts`).  The `name` field is
typed `string` in TypeScript but at runtime may be `undefined` when the
backend payload omits it, hence `Option`. -/
structure Company where
  name : Option String
  email : Option String
  contact : Option String
  role : String
deriving DecidableEq, Repr

/-- Partial event produced by list discovery
(`Omit<EventData, 'companies' | 'id'>` in `geminiService.ts`). -/
structure BasicEvent where
  name : String
  dateStart : String
  dateEnd : String
  venue : String
  country : Country
  description : Option String
deriving DecidableEq, Repr

/-- Full catalog event (`EventData` in `types.ts`). -/
structure Event where
  id : String
  name : String
  dateStart : String
  dateEnd : String
  venue : String
  country : Country
  description : Option String
  companies : List Company
  isNew : Bool
deriving DecidableEq, Repr

/-- Payload item of the list-discovery backend response (fields may be
absent in an arbitrary payload). -/
structure RawEventItem where
  name : String
  dateStart : String
  dateEnd : String
  venueName : Option String
  description : Option String
deriving DecidableEq, Repr

/-- Venue re-matching condition from `searchEventList`:
`item.venueName && item.venueName.toLowerCase().includes(v.toLowerCase().split(' ')[0])`.
An absent or empty `venueName` is falsy and never matches. -/
def venueNameMatches (vn : Option String) (v : String) : Bool :=
  match vn with
  | none => false
  | some s => !(s == "") && jsIncludes (jsToLower s) (firstWord (jsToLower v))

/-- Venue re-matching loop from `searchEventList`: start from the default
`venues[0]`, take the first venue in enumeration order whose
lowercased first word occurs in the lowercased returned text.  Result is
`none` only when the valid-venue list is empty (JS `undefined`). -/
def matchVenue (venues : List String) (vn : Option String) : Option String :=
  match venues with
  | [] => none
  | v0 :: _ => some ((venues.find? (fun v => venueNameMatches vn v)).getD v0)

/-- Mapping of one backend payload item to a partial event, from the
final `rawData.map` of `searchEventList`: venue re-matched against the
country's valid venues, country forced to the requested one. -/
def mapRawEventItem (c : Country) (item : RawEventItem) : BasicEvent :=
  { name := item.name
  , dateStart := item.dateStart
  , dateEnd := item.dateEnd
  , venue := (matchVenue (countryVenues c) item.venueName).getD ""
  , country := c
  , description := item.description }

/-- Organizer object of the shallow-enrichment backend payload. -/
structure RawOrganizer where
  name : Option String
  email : Option String
  contact : Option String
deriving DecidableEq, Repr

/-- Exhibitor object of the shallow-enrichment backend payload (the
response schema marks no field required, so all may be absent). -/
structure RawExhibitor where
  name : Option String
  email : Option String
  role : Option String
deriving DecidableEq, Repr

/-- Shallow-enrichment backend payload shape parsed by
`enrichEventDetails`. -/
structure EnrichPayload where
  organizer : Option RawOrganizer
  exhibitors : Option (List RawExhibitor)
deriving DecidableEq, Repr

/-- Company list built by `enrichEventDetails` from a parsed payload: the
organizer is included only when it has a truthy (non-empty) name; each
exhibitor is included unconditionally, with `name` taken as-is (possibly
absent) and `email` defaulted to the empty string. -/
def parseEnrich (p : EnrichPayload) : List Company :=
  (match p.organizer with
   | some o =>
     match o.name with
     | some n =>
       if n = "" then []
       else [{ name := some n, email := some (o.email.getD ""),
               contact := some (o.contact.getD ""), role := "Organizer" }]
     | none => []
   | none => []) ++
  (match p.exhibitors with
   | some exs => exs.map (fun ex =>
       { name := ex.name, email := some (ex.email.getD ""),
         contact := none, role := "Exhibitor" })
   | none => [])

/-- Last-wins keyed lookup, modelling
`new Map(events.map(e => [e.id, e])).get(id)`: a later entry with the
same id overwrites an earlier one. -/
def jsMapGet (prior : List Event) (key : String) : Option Event :=
  prior.foldl (fun acc e => if e.id = key then some e else acc) none

/-- Phase-1 provisional merge of `handleSearch`: each fresh partial event
gets its computed id, `isNew` true exactly when the id is absent from the
prior catalog, and the prior entry's companies carried over when present
(empty list otherwise). -/
def phase1Merge (prior : List Event) (fresh : List BasicEvent) : List Event :=
  fresh.map (fun base =>
    match jsMapGet prior (generateEventId base.name base.dateStart) with
    | some ex =>
      { id := generateEventId base.name base.dateStart, name := base.name
      , dateStart := base.dateStart, dateEnd := base.dateEnd, venue := base.venue
      , country := base.country, description := base.description
      , companies := ex.companies, isNew := false }
    | none =>
      { id := generateEventId base.name base.dateStart, name := base.name
      , dateStart := base.dateStart, dateEnd := base.dateEnd, venue := base.venue
      , country := base.country, description := base.description
      , companies := [], isNew := true })

/-- Stable ascending sort by parsed start date, modelling
`combined.sort((a, b) => new Date(a.dateStart).getTime() - new Date(b.dateStart).getTime())`.
The external date parser is passed in as `getTime`; a JavaScript sort
with a consistent numeric comparator is stable, and any stable sort
yields this unique result. -/
def sortEvents (getTime : String → Int) (l : List Event) : List Event :=
  l.insertionSort (fun a b => getTime a.dateStart ≤ getTime b.dateStart)

/-- Replace-this-country merge step used by both phases of
`handleSearch`: keep the other countries' entries, append the new events
for this country, and sort the whole catalog by start date. -/
def replaceCountry (getTime : String → Int) (catalog : List Event)
    (c : Country) (newEvents : List Event) : List Event :=
  sortEvents getTime (catalog.filter (fun e => e.country ≠ c) ++ newEvents)

/-- Status of one cooperative enrichment worker of `handleSearch`:
about to pop (`idle`), suspended awaiting the shallow-enrichment call for
the event at index `i` (`awaiting`), or terminated (`done`). -/
inductive WStatus where
  | idle
  | awaiting (i : Nat)
  | done
deriving DecidableEq, Repr

/-- State of the enrichment scheduler: the shared `mergedEvents` array
(mutated in place), the shared queue of remaining indices
(`processQueue`, popped by `shift()`), the three workers, the shared
`processedCount`, the fixed `totalToProcess`, the progress values
reported so far, and the indices whose shallow enrichment has been
invoked. -/
structure SchedState where
  events : List Event
  queue : List Nat
  workers : List WStatus
  processed : Nat
  total : Nat
  reports : List ℚ
  invoked : List Nat
deriving DecidableEq, Repr

/-- Initial scheduler state of a discovery run: the queue is seeded with
every phase-1 event (`processQueue = [...mergedEvents]`) and
`totalToProcess = mergedEvents.length`. -/
def initSched (merged : List Event) : SchedState :=
  { events := merged
  , queue := List.range merged.length
  , workers := [.idle, .idle, .idle]
  , processed := 0
  , total := merged.length
  , reports := []
  , invoked := [] }

/-- Progress value `20 + ((processedCount / totalToProcess) * 80)`
reported after each processed event. -/
def progressVal (processed total : Nat) : ℚ :=
  20 + ((processed : ℚ) / (total : ℚ)) * 80

/-- Replacement of the companies list of the event at one index, the
in-place mutation `event.companies = companies`. -/
def setCompanies : List Event → Nat → List Company → List Event
  | [], _, _ => []
  | e :: es, 0, cs => { e with companies := cs } :: es
  | e :: es, n + 1, cs => e :: setCompanies es n cs

/-- One scheduler action: a worker runs its next synchronous segment.
`poll w` is a worker at the top of its loop; `finish w r` resumes a
suspended worker with the enrichment outcome (`some cs` a returned
company list, `none` a thrown error caught by the worker). -/
inductive SchedAction where
  | poll (w : Nat)
  | finish (w : Nat) (r : Option (List Company))
deriving DecidableEq, Repr

/-- Small-step transition of the cooperative scheduler.  A `poll` pops
the head of the shared queue as its first synchronous action: an event
with an empty companies list is sent to shallow enrichment (the worker
suspends), any other popped event is counted as processed and its
progress reported at once.  A `finish` stores a successful result on the
event in place, counts it processed, and reports progress.  Invalid
actions have no successor. -/
def schedStep (s : SchedState) (a : SchedAction) : Option SchedState :=
  match a with
  | .poll w =>
    match s.workers.get? w with
    | some .idle =>
      match s.queue with
      | [] => some { s with workers := s.workers.set w .done }
      | i :: rest =>
        match (s.events.get? i).map Event.companies with
        | some cs =>
          if cs.isEmpty then
            some { s with queue := rest,
                          workers := s.workers.set w (.awaiting i),
                          invoked := s.invoked ++ [i] }
          else
            some { s with queue := rest,
                          processed := s.processed + 1,
                          reports := s.reports ++ [progressVal (s.processed + 1) s.total] }
        | none => none
    | _ => none
  | .finish w r =>
    match s.workers.get? w with
    | some (.awaiting i) =>
      let evs := match r with
        | some cs => setCompanies s.events i cs
        | none => s.events
      some { s with events := evs,
                    workers := s.workers.set w .idle,
                    processed := s.processed + 1,
                    reports := s.reports ++ [progressVal (s.processed + 1) s.total] }
    | _ => none

/-- Run of the scheduler under a chosen interleaving: invalid actions
are skipped. -/
def runSched (s : SchedState) (acts : List SchedAction) : SchedState :=
  acts.foldl (fun st a => (schedStep st a).getD st) s

/-- Lowercased names of a company list, `none` when a name is absent
(the `map` raising on a name-less record). -/
def lowerNames : List Company → Option (List String)
  | [] => some []
  | c :: cs =>
    match c.name with
    | none => none
    | some n => (lowerNames cs).map (fun ns => jsToLower n :: ns)

/-- Dedup/append operation of `handleDeepSearchEvent`, with the
`TypeError` thrown by `c.name.toLowerCase()` on a name-less company
modelled as `none`.  Mirrors
`const existingNames = new Set(e.companies.map(c => c.name.toLowerCase()))`
followed by `moreCompanies.filter(c => !existingNames.has(c.name.toLowerCase()))`
and `[...e.companies, ...newUnique]`. -/
def mergeCompanies (existing batch : List Company) : Option (List Company) :=
  match lowerNames existing with
  | none => none
  | some existingNames =>
    match lowerNames batch with
    | none => none
    | some batchNames =>
      let newUnique := (batch.zip batchNames).filter
        (fun p => !(existingNames.contains p.2))
      some (existing ++ newUnique.map Prod.fst)

/-- Outcome of one discovery run of `handleSearch`. -/
structure RunOutcome where
  result : Except String Unit
  catalog : List Event
  writes : List (List Event)
  enriched : List Nat
deriving Repr

/-- Whole discovery run of `handleSearch`, sequential model: list
discovery (its result passed in as `disc`), the empty-result check, the
phase-1 provisional merge and publish, the scheduler run under an
arbitrary interleaving `acts`, and the phase-2 final merge with its
persistence write.  A discovery failure or an empty list aborts before
any merge, enrichment or write. -/
def discoveryRun (getTime : String → Int) (prior : List Event) (c : Country)
    (disc : Except String (List BasicEvent)) (acts : List SchedAction) : RunOutcome :=
  match disc with
  | .error e => { result := .error e, catalog := prior, writes := [], enriched := [] }
  | .ok [] =>
    { result := .error "No events found. Please try again."
    , catalog := prior, writes := [], enriched := [] }
  | .ok fresh =>
    let merged := phase1Merge prior fresh
    let cat1 := replaceCountry getTime prior c merged
    let fin := runSched (initSched merged) acts
    let cat2 := replaceCountry getTime cat1 c fin.events
    { result := .ok (), catalog := cat2, writes := [cat2], enriched := fin.invoked }

/-- Sample company used by concrete instances. -/
def demoCompany : Company := ⟨some "Acme", none, none, "Organizer"⟩

/-- Sample catalog event whose companies list is already non-empty at
seed time. -/
def demoEnrichedEvent : Event :=
  ⟨generateEventId "Food Fair" "2025-05-01", "Food Fair", "2025-05-01", "2025-05-02",
   "BITEC Bangna", Country.Thailand, none, [demoCompany], false⟩

/-- Sample catalog event with an empty companies list. -/
def demoEmptyEvent : Event :=
  ⟨generateEventId "Tech Expo" "2025-06-01", "Tech Expo", "2025-06-01", "2025-06-02",
   "BITEC Bangna", Country.Thailand, none, [], true⟩

/-- Sample fresh discovery result. -/
def demoFresh : BasicEvent :=
  ⟨"Tech Expo", "2025-06-01", "2025-06-02", "BITEC Bangna", Country.Thailand, none⟩

/-! Injectivity of the identity encoding. -/

/-- Index of a character in the base64 alphabet. -/
def b64Val (c : Char) : Nat := b64Alphabet.indexOf c

theorem b64Val_b64Char : ∀ n : Fin 64, b64Val (b64Char n.val) = n.val := by decide

theorem b64Char_ne_pad : ∀ n : Fin 64, b64Char n.val ≠ '=' := by decide

theorem b64Char_inj {m n : Nat} (hm : m < 64) (hn : n < 64)
    (h : b64Char m = b64Char n) : m = n := by
  have h1 := b64Val_b64Char ⟨m, hm⟩
  have h2 := b64Val_b64Char ⟨n, hn⟩
  simp only [] at h1 h2
  rw [← h1, ← h2, h]

theorem b64Char_ne_pad' {n : Nat} (hn : n < 64) : b64Char n ≠ '=' :=
  b64Char_ne_pad ⟨n, hn⟩

theorem b64encode_inj : ∀ xs ys : List Nat, (∀ b ∈ xs, b < 256) →
    (∀ b ∈ ys, b < 256) → b64encode xs = b64encode ys → xs = ys := by
  intro xs
  induction xs using b64encode.induct with
  | case1 =>
    intro ys _ _ h
    match ys with
    | [] => rfl
    | [c0] => simp only [b64encode] at h; exact absurd h (by simp)
    | [c0, c1] => simp only [b64encode] at h; exact absurd h (by simp)
    | c0 :: c1 :: c2 :: rest => simp only [b64encode] at h; exact absurd h (by simp)
  | case2 b0 =>
    intro ys hx hy h
    have hb0 : b0 < 256 := hx b0 (by simp)
    match ys with
    | [] => simp only [b64encode] at h; exact absurd h (by simp)
    | [c0] =>
      have hc0 : c0 < 256 := hy c0 (by simp)
      simp only [b64encode] at h
      injection h with h1 h
      injection h with h2 h
      have e1 := b64Char_inj (by omega) (by omega) h1
      have e2 := b64Char_inj (by omega) (by omega) h2
      have : b0 = c0 := by omega
      rw [this]
    | [c0, c1] =>
      have hc1 : c1 < 256 := hy c1 (by simp)
      simp only [b64encode] at h
      injection h with h1 h
      injection h with h2 h
      injection h with h3 h
      exact absurd h3.symm (b64Char_ne_pad' (by omega))
    | c0 :: c1 :: c2 :: rest =>
      have hc2 : c2 < 256 := hy c2 (by simp)
      simp only [b64encode] at h
      injection h with h1 h
      injection h with h2 h
      injection h with h3 h
      injection h with h4 h
      exact absurd h4.symm (b64Char_ne_pad' (by omega))
  | case3 b0 b1 =>
    intro ys hx hy h
    have hb0 : b0 < 256 := hx b0 (by simp)
    have hb1 : b1 < 256 := hx b1 (by simp)
    match ys with
    | [] => simp only [b64encode] at h; exact absurd h (by simp)
    | [c0] =>
      simp only [b64encode] at h
      injection h with h1 h
      injection h with h2 h
      injection h with h3 h
      exact absurd h3 (b64Char_ne_pad' (by omega))
    | [c0, c1] =>
      have hc0 : c0 < 256 := hy c0 (by simp)
      have hc1 : c1 < 256 := hy c1 (by simp)
      simp only [b64encode] at h
      injection h with h1 h
      injection h with h2 h
      injection h with h3 h
      have e1 := b64Char_inj (by omega) (by omega) h1
      have e2 := b64Char_inj (by omega) (by omega) h2
      have e3 := b64Char_inj (by omega) (by omega) h3
      have : b0 = c0 := by omega
      have : b1 = c1 := by omega
      simp_all
    | c0 :: c1 :: c2 :: rest =>
      have hc2 : c2 < 256 := hy c2 (by simp)
      simp only [b64encode] at h
      injection h with h1 h
      injection h with h2 h
      injection h with h3 h
      injection h with h4 h
      exact absurd h4.symm (b64Char_ne_pad' (by omega))
  | case4 b0 b1 b2 rest ih =>
    intro ys hx hy h
    have hb0 : b0 < 256 := hx b0 (by simp)
    have hb1 : b1 < 256 := hx b1 (by simp)
    have hb2 : b2 < 256 := hx b2 (by simp)
    match ys with
    | [] => simp only [b64encode] at h; exact absurd h (by simp)
    | [c0] =>
      simp only [b64encode] at h
      injection h with h1 h
      injection h with h2 h
      injection h with h3 h
      injection h with h4 h
      exact absurd h4 (b64Char_ne_pad' (by omega))
    | [c0, c1] =>
      simp only [b64encode] at h
      injection h with h1 h
      injection h with h2 h
      injection h with h3 h
      injection h with h4 h
      exact absurd h4 (b64Char_ne_pad' (by omega))
    | c0 :: c1 :: c2 :: rest2 =>
      have hc0 : c0 < 256 := hy c0 (by simp)
      have hc1 : c1 < 256 := hy c1 (by simp)
      have hc2 : c2 < 256 := hy c2 (by simp)
      simp only [b64encode] at h
      injection h with h1 h
      injection h with h2 h
      injection h with h3 h
      injection h with h4 h
      have e1 := b64Char_inj (by omega) (by omega) h1
      have e2 := b64Char_inj (by omega) (by omega) h2
      have e3 := b64Char_inj (by omega) (by omega) h3
      have e4 := b64Char_inj (by omega) (by omega) h4
      have hrest := ih rest2 (fun b hb => hx b (by simp [hb]))
        (fun b hb => hy b (by simp [hb])) h
      have hb : b0 = c0 ∧ b1 = c1 ∧ b2 = c2 := by omega
      simp_all

theorem char_toNat_lt (c : Char) : c.toNat < 1114112 := by
  rcases c.valid with h | h
  · exact Nat.lt_trans h (by decide)
  · exact h.2

theorem utf8EncodeChar_lt256 (c : Char) : ∀ b ∈ utf8EncodeChar c, b < 256 := by
  have hv := char_toNat_lt c
  unfold utf8EncodeChar
  split
  · intro b hb; simp at hb; omega
  · split
    · intro b hb; simp at hb; rcases hb with hb | hb <;> omega
    · split
      · intro b hb; simp at hb; rcases hb with hb | hb | hb <;> omega
      · intro b hb; simp at hb; rcases hb with hb | hb | hb | hb <;> omega

theorem utf8EncodeChar_ne_nil (c : Char) : utf8EncodeChar c ≠ [] := by
  unfold utf8EncodeChar
  split
  · simp
  · split
    · simp
    · split <;> simp

theorem char_toNat_injective {c d : Char} (h : c.toNat = d.toNat) : c = d := by
  have h1 := Char.ofNat_toNat c
  have h2 := Char.ofNat_toNat d
  rw [← h1, ← h2, h]

theorem utf8EncodeChar_append_inj {c d : Char} {r s : List Nat}
    (h : utf8EncodeChar c ++ r = utf8EncodeChar d ++ s) : c = d ∧ r = s := by
  have hc := char_toNat_lt c
  have hd := char_toNat_lt d
  unfold utf8EncodeChar at h
  split at h <;> (try split at h) <;> (try split at h) <;>
    (try split at h) <;> (try split at h) <;> (try split at h) <;>
    simp only [List.cons_append, List.nil_append] at h <;>
    injections <;>
    first
      | exact ⟨char_toNat_injective (by omega), by assumption⟩
      | (exfalso; omega)

theorem utf8Bytes_inj : ∀ cs ds : List Char, utf8Bytes cs = utf8Bytes ds → cs = ds := by
  intro cs
  induction cs with
  | nil =>
    intro ds h
    cases ds with
    | nil => rfl
    | cons d ds =>
      exfalso
      simp only [utf8Bytes, List.flatMap_nil, List.flatMap_cons] at h
      rcases List.append_eq_nil.mp h.symm with ⟨h1, -⟩
      exact utf8EncodeChar_ne_nil d h1
  | cons c cs ih =>
    intro ds h
    cases ds with
    | nil =>
      exfalso
      simp only [utf8Bytes, List.flatMap_nil, List.flatMap_cons] at h
      rcases List.append_eq_nil.mp h with ⟨h1, -⟩
      exact utf8EncodeChar_ne_nil c h1
    | cons d ds =>
      simp only [utf8Bytes, List.flatMap_cons] at h
      obtain ⟨hcd, hrest⟩ := utf8EncodeChar_append_inj h
      rw [hcd, ih ds hrest]

theorem utf8Bytes_lt256 (cs : List Char) : ∀ b ∈ utf8Bytes cs, b < 256 := by
  intro b hb
  simp only [utf8Bytes, List.mem_flatMap] at hb
  obtain ⟨c, -, hc⟩ := hb
  exact utf8EncodeChar_lt256 c b hc

theorem string_data_inj {s t : String} (h : s.data = t.data) : s = t := by
  cases s
  cases t
  exact congrArg String.mk h

/-- Identity keys map to equal ids exactly when they are equal: the
encoding `btoa(unescape(encodeURIComponent(-)))` is injective. -/
theorem generateEventId_eq_iff (n1 d1 n2 d2 : String) :
    generateEventId n1 d1 = generateEventId n2 d2 ↔
      composedKey n1 d1 = composedKey n2 d2 := by
  constructor
  · intro h
    unfold generateEventId at h
    have hdata : b64encode (utf8Bytes (composedKey n1 d1).data) =
        b64encode (utf8Bytes (composedKey n2 d2).data) := congrArg String.data h
    have hbytes := b64encode_inj _ _
      (utf8Bytes_lt256 (composedKey n1 d1).data)
      (utf8Bytes_lt256 (composedKey n2 d2).data) hdata
    exact string_data_inj (utf8Bytes_inj _ _ hbytes)
  · intro h
    unfold generateEventId
    rw [h]

/-! Claim C2: event identity. -/

/-- C2, counterexample: the claim asserts that distinct
`(name, dateStart)` pairs always receive distinct ids, but the hyphen
joining the two components makes the pairs `("a-b", "c")` and
`("a", "b-c")` — distinct in both components, and with distinct
normalized names — share the composed key `"a-b-c"` and hence the same
id. -/
theorem C2_counterexample :
    generateEventId "a-b" "c" = generateEventId "a" "b-c" ∧
    jsTrim (jsToLower "a-b") ≠ jsTrim (jsToLower "a") ∧ ("c" : String) ≠ "b-c" := by
  decide

/-- C2 (amended): `generateEventId` is deterministic — equal normalized
names (`name.toLowerCase().trim()`) and equal start dates give equal
ids — and two ids are equal exactly when the composed keys
`normalizedName + "-" + dateStart` are equal, so distinct pairs collide
precisely when hyphens make their composed keys coincide. -/
theorem C2_id_deterministic_collision_iff (n1 d1 n2 d2 : String) :
    (jsTrim (jsToLower n1) = jsTrim (jsToLower n2) → d1 = d2 →
      generateEventId n1 d1 = generateEventId n2 d2) ∧
    (generateEventId n1 d1 = generateEventId n2 d2 ↔
      composedKey n1 d1 = composedKey n2 d2) := by
  refine ⟨fun hn hd => ?_, generateEventId_eq_iff n1 d1 n2 d2⟩
  apply (generateEventId_eq_iff n1 d1 n2 d2).mpr
  unfold composedKey
  rw [hn, hd]

/-- C2, witness: two raw names with the same normalization and date get
the same id. -/
theorem C2_witness :
    generateEventId "A " "2025-01-01" = generateEventId " a" "2025-01-01" :=
  (C2_id_deterministic_collision_iff "A " "2025-01-01" " a" "2025-01-01").1
    (by decide) rfl

/-! Claims C7 and C9: venue re-matching. -/

theorem matchVenue_mem {venues : List String} {vn : Option String} (h : venues ≠ []) :
    ∃ v, matchVenue venues vn = some v ∧ v ∈ venues := by
  cases venues with
  | nil => exact absurd rfl h
  | cons v0 tl =>
    unfold matchVenue
    cases hf : List.find? (fun v => venueNameMatches vn v) (v0 :: tl) with
    | none => exact ⟨v0, rfl, List.mem_cons_self v0 tl⟩
    | some v => exact ⟨v, rfl, List.mem_of_find?_eq_some hf⟩

theorem countryVenues_ne_nil (c : Country) : countryVenues c ≠ [] := by
  cases c <;> decide

/-- C7: venue re-matching takes the first venue, in enumeration order of
the country's valid venue set, whose canonical name's first word occurs
case-insensitively in the returned text; when none matches it defaults
to the first valid venue; and for Thailand with returned text
`"BITEC Bangna Hall 5"` the matched venue is `"BITEC Bangna"`. -/
theorem C7_venue_rematch_first_word (v0 : String) (tl : List String) (vn : Option String) :
    ((∀ v ∈ v0 :: tl, ¬ venueNameMatches vn v) → matchVenue (v0 :: tl) vn = some v0) ∧
    (∀ pre v post, v0 :: tl = pre ++ v :: post → venueNameMatches vn v →
      (∀ u ∈ pre, ¬ venueNameMatches vn u) → matchVenue (v0 :: tl) vn = some v) ∧
    matchVenue (countryVenues Country.Thailand) (some "BITEC Bangna Hall 5") =
      some "BITEC Bangna" := by
  refine ⟨fun hnone => ?_, fun pre v post hsplit hv hpre => ?_, by decide⟩
  · have hf : List.find? (fun v => venueNameMatches vn v) (v0 :: tl) = none :=
      List.find?_eq_none.mpr (by simpa using hnone)
    unfold matchVenue
    rw [hf]
    rfl
  · have hf : List.find? (fun u => venueNameMatches vn u) (v0 :: tl) = some v := by
      apply List.find?_eq_some.mpr
      refine ⟨hv, pre, post, hsplit, fun a ha => ?_⟩
      simpa using hpre a ha
    unfold matchVenue
    rw [hf]
    rfl

/-- C7, witness: the Thailand example derived through the first-match
clause, with the prefix `["Impact Arena & Exhibition Center"]` not
matching and `"BITEC Bangna"` matching. -/
theorem C7_witness :
    matchVenue (countryVenues Country.Thailand) (some "BITEC Bangna Hall 5") =
      some "BITEC Bangna" := by
  have h := (C7_venue_rematch_first_word "Impact Arena & Exhibition Center"
      ["BITEC Bangna", "Queen Sirikit National Convention Center (QSNCC)"]
      (some "BITEC Bangna Hall 5")).2.1
    ["Impact Arena & Exhibition Center"] "BITEC Bangna"
    ["Queen Sirikit National Convention Center (QSNCC)"]
    rfl (by decide) (by decide)
  have hc : countryVenues Country.Thailand =
      "Impact Arena & Exhibition Center" ::
        ["BITEC Bangna", "Queen Sirikit National Convention Center (QSNCC)"] := by
    decide
  rw [hc]
  exact h

/-- C9: every event produced by the list-discovery mapping carries the
requested country, and its venue is drawn from that country's valid
venue set, for every backend payload item — including items with an
absent, empty, or unmatched `venueName`. -/
theorem C9_discovery_country_venue_invariant (c : Country) (item : RawEventItem) :
    (mapRawEventItem c item).country = c ∧
    (mapRawEventItem c item).venue ∈ countryVenues c := by
  obtain ⟨v, hm, hv⟩ := @matchVenue_mem (countryVenues c) item.venueName (countryVenues_ne_nil c)
  refine ⟨rfl, ?_⟩
  unfold mapRawEventItem
  simp only [hm, Option.getD_some]
  exact hv

/-! Claims C6 and C10: deep-search dedup/append. -/

theorem lowerNames_of_isSome (l : List Company) (h : ∀ c ∈ l, c.name.isSome) :
    lowerNames l = some (l.map (fun c => jsToLower (c.name.getD ""))) := by
  induction l with
  | nil => rfl
  | cons c cs ih =>
    obtain ⟨n, hn⟩ := Option.isSome_iff_exists.mp (h c (List.mem_cons_self c cs))
    have ihs := ih (fun d hd => h d (List.mem_cons_of_mem c hd))
    simp [lowerNames, hn, ihs]

theorem zip_self_map_filter {α β : Type _} (g : α → β) (q : β → Bool) (l : List α) :
    ((l.zip (l.map g)).filter (fun p => q p.2)).map Prod.fst
      = l.filter (fun c => q (g c)) := by
  induction l with
  | nil => rfl
  | cons a as ih =>
    simp only [List.map_cons, List.zip_cons_cons, List.filter_cons]
    cases h : q (g a) <;> simp [h, ih]

/-- C6: for name-bearing inputs (the domain the claim describes — see
C10 for name-less records) the dedup/append operation returns the prior
companies list unchanged followed by exactly the batch entries whose
lowercased name is not among the prior lowercased names, in batch order
and without intra-batch deduplication; and the concrete instance
`[Acme] ⊕ [acme, Beta] = [Acme, Beta]` holds. -/
theorem C6_dedup_append (existing batch : List Company)
    (hex : ∀ c ∈ existing, c.name.isSome) (hba : ∀ c ∈ batch, c.name.isSome) :
    mergeCompanies existing batch =
      some (existing ++ batch.filter (fun c =>
        !((existing.map (fun d => jsToLower (d.name.getD ""))).contains
            (jsToLower (c.name.getD ""))))) ∧
    mergeCompanies [⟨some "Acme", none, none, "Exhibitor"⟩]
        [⟨some "acme", none, none, "Exhibitor"⟩, ⟨some "Beta", none, none, "Exhibitor"⟩] =
      some [⟨some "Acme", none, none, "Exhibitor"⟩,
            ⟨some "Beta", none, none, "Exhibitor"⟩] := by
  constructor
  · unfold mergeCompanies
    rw [lowerNames_of_isSome existing hex, lowerNames_of_isSome batch hba]
    show some _ = some _
    rw [zip_self_map_filter (fun c => jsToLower (c.name.getD ""))
      (fun b => !((existing.map (fun d => jsToLower (d.name.getD ""))).contains b)) batch]
  · decide

/-- C6, witness: the claim's own concrete instance, obtained from the
general characterization. -/
theorem C6_witness :
    mergeCompanies [⟨some "Acme", none, none, "Exhibitor"⟩]
        [⟨some "acme", none, none, "Exhibitor"⟩, ⟨some "Beta", none, none, "Exhibitor"⟩] =
      some [⟨some "Acme", none, none, "Exhibitor"⟩,
            ⟨some "Beta", none, none, "Exhibitor"⟩] :=
  (C6_dedup_append [⟨some "Acme", none, none, "Exhibitor"⟩]
    [⟨some "acme", none, none, "Exhibitor"⟩, ⟨some "Beta", none, none, "Exhibitor"⟩]
    (by decide) (by decide)).2

/-- C10, counterexample: shallow enrichment maps a backend exhibitor
record lacking a name to a name-less company, and the dedup/append
operation then fails on it (`c.name.toLowerCase()` raises `TypeError`,
modelled as `none`), so the operation does not complete without error on
every catalog state the pipeline can produce. -/
theorem C10_counterexample :
    parseEnrich { organizer := none, exhibitors := some [⟨none, none, none⟩] } =
      [{ name := none, email := some "", contact := none, role := "Exhibitor" }] ∧
    mergeCompanies
      [{ name := none, email := some "", contact := none, role := "Exhibitor" }] [] =
      none := by
  decide

/-- C10 (amended): the dedup/append operation completes without error on
every catalog state in which each company record carries a name; catalog
states with name-less companies — which shallow enrichment can produce
from exhibitor records lacking a name — make it raise. -/
theorem C10_merge_total_on_named (existing batch : List Company)
    (hex : ∀ c ∈ existing, c.name.isSome) (hba : ∀ c ∈ batch, c.name.isSome) :
    (mergeCompanies existing batch).isSome := by
  unfold mergeCompanies
  rw [lowerNames_of_isSome existing hex, lowerNames_of_isSome batch hba]
  rfl

/-- C10, witness: a concrete named catalog state on which the merge
completes. -/
theorem C10_witness :
    (mergeCompanies [⟨some "Acme", none, none, "Exhibitor"⟩]
      [⟨some "Beta", none, none, "Exhibitor"⟩]).isSome :=
  C10_merge_total_on_named _ _ (by decide) (by decide)

/-! Claim C3: phase-1 provisional merge. -/

theorem jsMapGet_skip {k : String} (l : List Event) (acc : Option Event)
    (h : ∀ x ∈ l, x.id ≠ k) :
    l.foldl (fun acc e => if e.id = k then some e else acc) acc = acc := by
  induction l generalizing acc with
  | nil => rfl
  | cons a l ih =>
    simp only [List.foldl_cons]
    rw [if_neg (h a (List.mem_cons_self a l))]
    exact ih acc (fun x hx => h x (List.mem_cons_of_mem a hx))

theorem jsMapGet_foldl_some {k : String} : ∀ (l : List Event) (acc : Option Event) (e : Event),
    l.foldl (fun acc e => if e.id = k then some e else acc) acc = some e →
    acc = some e ∨ (e ∈ l ∧ e.id = k) := by
  intro l
  induction l with
  | nil => exact fun acc e h => Or.inl h
  | cons a l ih =>
    intro acc e h
    simp only [List.foldl_cons] at h
    rcases ih _ e h with h' | h'
    · by_cases ha : a.id = k
      · rw [if_pos ha] at h'
        have : a = e := Option.some.inj h'
        exact Or.inr ⟨this ▸ List.mem_cons_self a l, this ▸ ha⟩
      · rw [if_neg ha] at h'
        exact Or.inl h'
    · exact Or.inr ⟨List.mem_cons_of_mem a h'.1, h'.2⟩

theorem jsMapGet_foldl_some_acc {k : String} : ∀ (l : List Event) (x : Event),
    l.foldl (fun acc e => if e.id = k then some e else acc) (some x) ≠ none := by
  intro l
  induction l with
  | nil => intro x h; exact Option.noConfusion h
  | cons a l ih =>
    intro x
    simp only [List.foldl_cons]
    by_cases ha : a.id = k
    · rw [if_pos ha]; exact ih a
    · rw [if_neg ha]; exact ih x

theorem jsMapGet_foldl_ne_none {k : String} : ∀ (l : List Event) (acc : Option Event) (e : Event),
    e ∈ l → e.id = k →
    l.foldl (fun acc e => if e.id = k then some e else acc) acc ≠ none := by
  intro l
  induction l with
  | nil => intro acc e he _; exact absurd he (List.not_mem_nil e)
  | cons a l ih =>
    intro acc e he hk
    simp only [List.foldl_cons]
    rcases List.mem_cons.mp he with rfl | he'
    · rw [if_pos hk]
      exact jsMapGet_foldl_some_acc l e
    · exact ih _ e he' hk

theorem jsMapGet_eq_none_iff (prior : List Event) (k : String) :
    jsMapGet prior k = none ↔ ∀ e ∈ prior, e.id ≠ k := by
  constructor
  · intro h e he hk
    exact jsMapGet_foldl_ne_none prior none e he hk h
  · intro h
    unfold jsMapGet
    exact jsMapGet_skip prior none h

theorem jsMapGet_some (prior : List Event) (k : String) (e : Event)
    (h : jsMapGet prior k = some e) : e ∈ prior ∧ e.id = k := by
  unfold jsMapGet at h
  rcases jsMapGet_foldl_some prior none e h with h' | h'
  · exact Option.noConfusion h'
  · exact h'

theorem jsMapGet_unique (prior : List Event) (k : String)
    (hnd : (prior.map Event.id).Nodup) (e : Event) (he : e ∈ prior) (hk : e.id = k) :
    jsMapGet prior k = some e := by
  induction prior with
  | nil => exact absurd he (List.not_mem_nil e)
  | cons a l ih =>
    rw [List.map_cons, List.nodup_cons] at hnd
    unfold jsMapGet
    simp only [List.foldl_cons]
    rcases List.mem_cons.mp he with rfl | he'
    · rw [if_pos hk]
      apply jsMapGet_skip
      intro x hx hxk
      apply hnd.1
      rw [hk.trans hxk.symm]
      exact List.mem_map_of_mem Event.id hx
    · have ha : a.id ≠ k := by
        intro hak
        apply hnd.1
        rw [hak.trans hk.symm]
        exact List.mem_map_of_mem Event.id he'
      rw [if_neg ha]
      exact ih hnd.2 he'

/-- C3: after the phase-1 provisional merge, each fresh event's `isNew`
flag is true exactly when its computed id was absent from the prior
catalog, its companies list is carried over from the prior entry with
that id when one exists, and is empty otherwise.  Stated for prior
catalogs with pairwise-distinct ids (the catalog invariant), so that
"the prior catalog entry" is well defined. -/
theorem C3_phase1_isNew_carryover (prior : List Event) (fresh : List BasicEvent)
    (hnd : (prior.map Event.id).Nodup) :
    ∀ k b, fresh.get? k = some b →
      ∃ m, (phase1Merge prior fresh).get? k = some m ∧
        (m.isNew = true ↔ ∀ e ∈ prior, e.id ≠ generateEventId b.name b.dateStart) ∧
        (∀ e ∈ prior, e.id = generateEventId b.name b.dateStart →
          m.companies = e.companies) ∧
        ((∀ e ∈ prior, e.id ≠ generateEventId b.name b.dateStart) →
          m.companies = []) := by
  intro k b hb
  rw [List.get?_eq_getElem?] at hb
  cases hm : jsMapGet prior (generateEventId b.name b.dateStart) with
  | none =>
    refine ⟨{ id := generateEventId b.name b.dateStart, name := b.name
            , dateStart := b.dateStart, dateEnd := b.dateEnd, venue := b.venue
            , country := b.country, description := b.description
            , companies := [], isNew := true }, ?_, ?_, ?_, ?_⟩
    · simp only [phase1Merge, List.get?_eq_getElem?, List.getElem?_map, hb,
        Option.map_some', hm]
    · exact iff_of_true rfl ((jsMapGet_eq_none_iff prior _).mp hm)
    · intro e he hk
      exact absurd hk ((jsMapGet_eq_none_iff prior _).mp hm e he)
    · intro _
      rfl
  | some ex =>
    have hmem := jsMapGet_some prior _ ex hm
    refine ⟨{ id := generateEventId b.name b.dateStart, name := b.name
            , dateStart := b.dateStart, dateEnd := b.dateEnd, venue := b.venue
            , country := b.country, description := b.description
            , companies := ex.companies, isNew := false }, ?_, ?_, ?_, ?_⟩
    · simp only [phase1Merge, List.get?_eq_getElem?, List.getElem?_map, hb,
        Option.map_some', hm]
    · exact iff_of_false (by simp) (fun h => absurd hmem.2 (h ex hmem.1))
    · intro e he hk
      have hu := jsMapGet_unique prior _ hnd e he hk
      rw [hu] at hm
      rw [Option.some.inj hm]
    · intro h
      exact absurd hmem.2 (h ex hmem.1)

/-- C3, witness: one prior entry whose id matches the single fresh event
(`isNew = false`, companies carried over). -/
theorem C3_witness :
    ∃ m, (phase1Merge
        [{ id := generateEventId "Tech Expo" "2025-03-01", name := "Tech Expo"
         , dateStart := "2025-03-01", dateEnd := "2025-03-02", venue := "BITEC Bangna"
         , country := Country.Thailand, description := none
         , companies := [⟨some "Acme", none, none, "Organizer"⟩], isNew := false }]
        [{ name := "Tech Expo", dateStart := "2025-03-01", dateEnd := "2025-03-02"
         , venue := "BITEC Bangna", country := Country.Thailand, description := none }]).get? 0
      = some m ∧
      m.isNew = false ∧ m.companies = [⟨some "Acme", none, none, "Organizer"⟩] := by
  obtain ⟨m, hm, h1, h2, h3⟩ := C3_phase1_isNew_carryover
    [{ id := generateEventId "Tech Expo" "2025-03-01", name := "Tech Expo"
     , dateStart := "2025-03-01", dateEnd := "2025-03-02", venue := "BITEC Bangna"
     , country := Country.Thailand, description := none
     , companies := [⟨some "Acme", none, none, "Organizer"⟩], isNew := false }]
    [{ name := "Tech Expo", dateStart := "2025-03-01", dateEnd := "2025-03-02"
     , venue := "BITEC Bangna", country := Country.Thailand, description := none }]
    (by simp) 0
    { name := "Tech Expo", dateStart := "2025-03-01", dateEnd := "2025-03-02"
    , venue := "BITEC Bangna", country := Country.Thailand, description := none } rfl
  refine ⟨m, hm, ?_, ?_⟩
  · cases hnew : m.isNew with
    | false => rfl
    | true => exact ((h1.mp hnew) _ (List.mem_cons_self _ _) rfl).elim
  · exact h2 _ (List.mem_cons_self _ _) rfl

/-! Claims C4 and C5: enrichment scheduler. -/

theorem setCompanies_length : ∀ (l : List Event) (i : Nat) (cs : List Company),
    (setCompanies l i cs).length = l.length
  | [], _, _ => rfl
  | _ :: es, 0, _ => rfl
  | _ :: es, i + 1, cs => congrArg Nat.succ (setCompanies_length es i cs)

theorem setCompanies_get?_ne : ∀ (l : List Event) (i j : Nat) (cs : List Company),
    j ≠ i → (setCompanies l i cs).get? j = l.get? j
  | [], _, _, _, _ => rfl
  | e :: es, 0, 0, cs, h => absurd rfl h
  | e :: es, 0, j + 1, cs, h => rfl
  | e :: es, i + 1, 0, cs, h => rfl
  | e :: es, i + 1, j + 1, cs, h =>
    setCompanies_get?_ne es i j cs (fun hh => h (congrArg Nat.succ hh))

theorem setCompanies_map {α : Type _} (f : Event → α)
    (hf : ∀ e cs, f { e with companies := cs } = f e) :
    ∀ (l : List Event) (i : Nat) (cs : List Company),
      (setCompanies l i cs).map f = l.map f
  | [], _, _ => rfl
  | e :: es, 0, cs => by simp [setCompanies, hf]
  | e :: es, i + 1, cs => by
    simp only [setCompanies, List.map_cons]
    rw [setCompanies_map f hf es i cs]

/-- Inductive invariant of the scheduler run, relative to the seed list. -/
def SchedInv (init : List Event) (s : SchedState) : Prop :=
  s.queue.Nodup ∧
  s.invoked.Nodup ∧
  (∀ i ∈ s.invoked, i ∉ s.queue) ∧
  (∀ w i, s.workers.get? w = some (WStatus.awaiting i) → i ∈ s.invoked) ∧
  (∀ i e, init.get? i = some e → e.companies ≠ [] →
    s.events.get? i = some e ∧ i ∉ s.invoked) ∧
  s.total = init.length ∧
  s.reports = (List.range s.processed).map (fun j => progressVal (j + 1) s.total)

theorem schedInv_init (init : List Event) : SchedInv init (initSched init) := by
  refine ⟨List.nodup_range _, List.nodup_nil, ?_, ?_, ?_, rfl, rfl⟩
  · intro i hi
    exact absurd hi (List.not_mem_nil i)
  · intro w i hw
    rcases w with - | w
    · exact Option.noConfusion hw (fun h => WStatus.noConfusion h)
    rcases w with - | w
    · exact Option.noConfusion hw (fun h => WStatus.noConfusion h)
    rcases w with - | w
    · exact Option.noConfusion hw (fun h => WStatus.noConfusion h)
    · exact Option.noConfusion hw
  · intro i e hi _
    exact ⟨hi, List.not_mem_nil i⟩

theorem workers_set_awaiting {P : Nat → Prop} {ws : List WStatus} {w : Nat} {x : WStatus}
    (hold : ∀ w' i, ws.get? w' = some (WStatus.awaiting i) → P i)
    (hx : ∀ i, x = WStatus.awaiting i → P i) :
    ∀ w' i, (ws.set w x).get? w' = some (WStatus.awaiting i) → P i := by
  intro w' i h
  rw [List.get?_eq_getElem?, List.getElem?_set] at h
  by_cases he : w = w'
  · rw [if_pos he] at h
    by_cases hlt : w < ws.length
    · rw [if_pos hlt] at h
      exact hx i (Option.some.inj h)
    · rw [if_neg hlt] at h
      exact Option.noConfusion h
  · rw [if_neg he] at h
    exact hold w' i (by rw [List.get?_eq_getElem?]; exact h)

theorem schedInv_step (init : List Event) (s t : SchedState) (a : SchedAction)
    (hi : SchedInv init s) (hstep : schedStep s a = some t) : SchedInv init t := by
  obtain ⟨hq, hinv, hdisj, hwork, hseed, htot, hrep⟩ := hi
  cases a with
  | poll w =>
    unfold schedStep at hstep
    dsimp only at hstep
    cases hw : s.workers.get? w with
    | none => rw [hw] at hstep; exact Option.noConfusion hstep
    | some st =>
      rw [hw] at hstep
      cases st with
      | awaiting i => exact Option.noConfusion hstep
      | done => exact Option.noConfusion hstep
      | idle =>
        cases hqe : s.queue with
        | nil =>
          rw [hqe] at hstep
          rw [← Option.some.inj hstep]
          refine ⟨List.nodup_nil, hinv, ?_, ?_, hseed, htot, hrep⟩
          · intro j hj
            exact List.not_mem_nil j
          · exact workers_set_awaiting hwork (fun i h => WStatus.noConfusion h)
        | cons i rest =>
          rw [hqe] at hstep
          dsimp only at hstep
          cases hev : (s.events.get? i).map Event.companies with
          | none => rw [hev] at hstep; exact Option.noConfusion hstep
          | some cs =>
            rw [hev] at hstep
            dsimp only at hstep
            have hqnd : i ∉ rest ∧ rest.Nodup := by
              rw [hqe] at hq
              exact List.nodup_cons.mp hq
            by_cases hcs : cs.isEmpty
            · rw [if_pos hcs] at hstep
              rw [← Option.some.inj hstep]
              have hinotinv : i ∉ s.invoked := by
                intro hmem
                exact hdisj i hmem (hqe ▸ List.mem_cons_self i rest)
              refine ⟨hqnd.2, ?_, ?_, ?_, ?_, htot, hrep⟩
              · simpa [List.nodup_append] using ⟨hinv, fun hx => hinotinv hx⟩
              · intro j hj
                rcases List.mem_append.mp hj with hj | hj
                · intro hr
                  exact hdisj j hj (hqe ▸ List.mem_cons_of_mem i hr)
                · rw [List.mem_singleton.mp hj]
                  exact hqnd.1
              · apply workers_set_awaiting
                · intro w' i' h
                  exact List.mem_append_left _ (hwork w' i' h)
                · intro i' h
                  rw [← WStatus.awaiting.inj h]
                  exact List.mem_append_right _ (List.mem_singleton.mpr rfl)
              · intro j e hj hne
                obtain ⟨he1, he2⟩ := hseed j e hj hne
                refine ⟨he1, ?_⟩
                intro hmem
                rcases List.mem_append.mp hmem with hm | hm
                · exact he2 hm
                · have hji := List.mem_singleton.mp hm
                  subst hji
                  have hce : cs = e.companies := by
                    rw [he1] at hev
                    simpa using hev.symm
                  rw [hce] at hcs
                  exact hne (List.isEmpty_iff.mp hcs)
            · rw [if_neg hcs] at hstep
              rw [← Option.some.inj hstep]
              refine ⟨hqnd.2, hinv, ?_, hwork, hseed, htot, ?_⟩
              · intro j hj hr
                exact hdisj j hj (hqe ▸ List.mem_cons_of_mem i hr)
              · simp only [List.range_succ, List.map_append, List.map_cons, List.map_nil]
                rw [hrep]
  | finish w r =>
    unfold schedStep at hstep
    dsimp only at hstep
    cases hw : s.workers.get? w with
    | none => rw [hw] at hstep; exact Option.noConfusion hstep
    | some st =>
      rw [hw] at hstep
      cases st with
      | idle => exact Option.noConfusion hstep
      | done => exact Option.noConfusion hstep
      | awaiting i =>
        have hiinv : i ∈ s.invoked := hwork w i hw
        rw [← Option.some.inj hstep]
        refine ⟨hq, hinv, hdisj, ?_, ?_, htot, ?_⟩
        · exact workers_set_awaiting hwork (fun i' h => WStatus.noConfusion h)
        · intro j e hj hne
          obtain ⟨he1, he2⟩ := hseed j e hj hne
          refine ⟨?_, he2⟩
          cases r with
          | none => exact he1
          | some cs =>
            have hji : j ≠ i := fun h => he2 (h ▸ hiinv)
            simp only []
            rw [setCompanies_get?_ne s.events i j cs hji]
            exact he1
        · simp only [List.range_succ, List.map_append, List.map_cons, List.map_nil]
          rw [hrep]

theorem schedInv_run (init : List Event) (s : SchedState) (acts : List SchedAction)
    (hi : SchedInv init s) : SchedInv init (runSched s acts) := by
  induction acts generalizing s with
  | nil => exact hi
  | cons a acts ih =>
    have hr : runSched s (a :: acts) = runSched ((schedStep s a).getD s) acts := rfl
    rw [hr]
    cases hstep : schedStep s a with
    | none => exact ih s hi
    | some t => exact ih t (schedInv_step init s t a hi hstep)

theorem schedStep_events_map {α : Type _} (f : Event → α)
    (hf : ∀ e cs, f { e with companies := cs } = f e)
    (s t : SchedState) (a : SchedAction) (h : schedStep s a = some t) :
    t.events.map f = s.events.map f := by
  cases a with
  | poll w =>
    unfold schedStep at h
    dsimp only at h
    cases hw : s.workers.get? w with
    | none => rw [hw] at h; exact Option.noConfusion h
    | some st =>
      rw [hw] at h
      cases st with
      | awaiting i => exact Option.noConfusion h
      | done => exact Option.noConfusion h
      | idle =>
        cases hqe : s.queue with
        | nil =>
          rw [hqe] at h
          rw [← Option.some.inj h]
        | cons i rest =>
          rw [hqe] at h
          dsimp only at h
          cases hev : (s.events.get? i).map Event.companies with
          | none => rw [hev] at h; exact Option.noConfusion h
          | some cs =>
            rw [hev] at h
            dsimp only at h
            by_cases hcs : cs.isEmpty
            · rw [if_pos hcs] at h
              rw [← Option.some.inj h]
            · rw [if_neg hcs] at h
              rw [← Option.some.inj h]
  | finish w r =>
    unfold schedStep at h
    dsimp only at h
    cases hw : s.workers.get? w with
    | none => rw [hw] at h; exact Option.noConfusion h
    | some st =>
      rw [hw] at h
      cases st with
      | idle => exact Option.noConfusion h
      | done => exact Option.noConfusion h
      | awaiting i =>
        rw [← Option.some.inj h]
        cases r with
        | none => rfl
        | some cs => exact setCompanies_map f hf s.events i cs

theorem runSched_events_map {α : Type _} (f : Event → α)
    (hf : ∀ e cs, f { e with companies := cs } = f e)
    (s : SchedState) (acts : List SchedAction) :
    (runSched s acts).events.map f = s.events.map f := by
  induction acts generalizing s with
  | nil => rfl
  | cons a acts ih =>
    have hr : runSched s (a :: acts) = runSched ((schedStep s a).getD s) acts := rfl
    rw [hr]
    cases hstep : schedStep s a with
    | none => exact ih s
    | some t => exact (ih t).trans (schedStep_events_map f hf s t a hstep)

theorem progressVal_mono (T : Nat) {a b : Nat} (hab : a ≤ b) :
    progressVal a T ≤ progressVal b T := by
  unfold progressVal
  rcases Nat.eq_zero_or_pos T with hT | hT
  · subst hT
    simp
  · have hT' : (0 : ℚ) < (T : ℚ) := by exact_mod_cast hT
    have hab' : (a : ℚ) ≤ (b : ℚ) := by exact_mod_cast hab
    have hdiv : (a : ℚ) / T ≤ (b : ℚ) / T := (div_le_div_iff_of_pos_right hT').mpr hab'
    nlinarith [hdiv]

/-- C4: in every run of the three-worker cooperative scheduler (queue
pop the first synchronous action of each loop segment), each queue
entry's shallow enrichment is invoked at most once, and an entry whose
companies list is non-empty at seed time is never enriched. -/
theorem C4_enrich_at_most_once (merged : List Event) (acts : List SchedAction) :
    (runSched (initSched merged) acts).invoked.Nodup ∧
    (∀ i e, merged.get? i = some e → e.companies ≠ [] →
      i ∉ (runSched (initSched merged) acts).invoked) := by
  have h := schedInv_run merged (initSched merged) acts (schedInv_init merged)
  exact ⟨h.2.1, fun i e hi hne => (h.2.2.2.2.1 i e hi hne).2⟩

/-- C4, witness: a two-event seed where the already-enriched event is
popped and never invoked. -/
theorem C4_witness :
    0 ∉ (runSched (initSched [demoEnrichedEvent, demoEmptyEvent])
          [SchedAction.poll 0]).invoked ∧
    (runSched (initSched [demoEnrichedEvent, demoEmptyEvent])
          [SchedAction.poll 0]).invoked.Nodup := by
  have h := C4_enrich_at_most_once [demoEnrichedEvent, demoEmptyEvent] [SchedAction.poll 0]
  exact ⟨h.2 0 demoEnrichedEvent rfl (by decide), h.1⟩

/-- C5, counterexample: the queue is seeded with every phase-1 event,
not only the companies-empty ones — here both indices 0 and 1 although
event 0 already has a company — and the first reported progress value is
`20 + (1/2)·80 = 60`, not the `20 + 80·(1/1) = 100` the claim's
`totalQueued = 1` denominator would give. -/
theorem C5_counterexample :
    (initSched [demoEnrichedEvent, demoEmptyEvent]).queue = [0, 1] ∧
    demoEnrichedEvent.companies ≠ [] ∧
    (runSched (initSched [demoEnrichedEvent, demoEmptyEvent])
        [SchedAction.poll 0]).reports = [60] ∧
    (60 : ℚ) ≠ 20 + 80 * (1 / 1) := by
  refine ⟨by decide, by decide, ?_, by norm_num⟩
  have h : (runSched (initSched [demoEnrichedEvent, demoEmptyEvent])
      [SchedAction.poll 0]).reports = [progressVal 1 2] := rfl
  rw [h]
  unfold progressVal
  norm_num

/-- C5 (amended): the work queue is seeded with all phase-1 events
(regardless of their companies list), the progress value reported after
the k-th processed event is `20% + 80% · (k / totalEvents)` with
`totalEvents` the full phase-1 event count, and the reported sequence is
monotonically non-decreasing. -/
theorem C5_queue_seed_progress (merged : List Event) (acts : List SchedAction) :
    (initSched merged).queue = List.range merged.length ∧
    (runSched (initSched merged) acts).reports =
      (List.range (runSched (initSched merged) acts).processed).map
        (fun k => progressVal (k + 1) merged.length) ∧
    List.Pairwise (fun x y => x ≤ y) (runSched (initSched merged) acts).reports := by
  have h := schedInv_run merged (initSched merged) acts (schedInv_init merged)
  have htot := h.2.2.2.2.2.1
  have hrep := h.2.2.2.2.2.2
  refine ⟨rfl, ?_, ?_⟩
  · rw [hrep, htot]
  · rw [hrep]
    rw [List.pairwise_map]
    apply List.Pairwise.imp ?_ (List.pairwise_lt_range _)
    intro a b hab
    exact progressVal_mono _ (Nat.succ_le_succ hab.le)

/-! Claims C1 and C8: catalog merge phases and run abort. -/

theorem phase1Merge_country (prior : List Event) (fresh : List BasicEvent) (c : Country)
    (hc : ∀ b ∈ fresh, b.country = c) :
    ∀ e ∈ phase1Merge prior fresh, e.country = c := by
  intro e he
  obtain ⟨b, hb, rfl⟩ := List.mem_map.mp he
  cases hm : jsMapGet prior (generateEventId b.name b.dateStart) <;>
    simp [hm] <;> exact hc b hb

/-- C1, counterexample: a fresh discovery list containing the same event
twice produces a phase-1 catalog with two entries sharing one id — the
merge never deduplicates ids. -/
theorem C1_counterexample :
    ¬ (((replaceCountry (fun _ => 0) [] Country.Thailand
        (phase1Merge [] [demoFresh, demoFresh])).map Event.id).Nodup) := by
  decide

/-- C1 (amended): after each merge phase the catalog is sorted ascending
by start date, unconditionally; and it contains at most one entry per id
provided the retained other-country entries and the freshly merged
events have pairwise-distinct ids (which fails when the fresh list
repeats an id or a retained entry shares one).  Stated for discovery
outputs, whose country is the requested one. -/
theorem C1_merge_sorted_unique (getTime : String → Int) (prior : List Event)
    (c : Country) (fresh : List BasicEvent) (acts : List SchedAction)
    (hc : ∀ b ∈ fresh, b.country = c)
    (hids : (((prior.filter (fun e => e.country ≠ c)).map Event.id) ++
      ((phase1Merge prior fresh).map Event.id)).Nodup) :
    List.Pairwise (fun a b => getTime a.dateStart ≤ getTime b.dateStart)
      (replaceCountry getTime prior c (phase1Merge prior fresh)) ∧
    ((replaceCountry getTime prior c (phase1Merge prior fresh)).map Event.id).Nodup ∧
    List.Pairwise (fun a b => getTime a.dateStart ≤ getTime b.dateStart)
      (replaceCountry getTime (replaceCountry getTime prior c (phase1Merge prior fresh)) c
        (runSched (initSched (phase1Merge prior fresh)) acts).events) ∧
    ((replaceCountry getTime (replaceCountry getTime prior c (phase1Merge prior fresh)) c
        (runSched (initSched (phase1Merge prior fresh)) acts).events).map Event.id).Nodup := by
  haveI hto : IsTotal Event (fun a b => getTime a.dateStart ≤ getTime b.dateStart) :=
    ⟨fun a b => Int.le_total _ _⟩
  haveI htr : IsTrans Event (fun a b => getTime a.dateStart ≤ getTime b.dateStart) :=
    ⟨fun a b c0 h1 h2 => Int.le_trans h1 h2⟩
  have hsort : ∀ l : List Event,
      List.Pairwise (fun a b => getTime a.dateStart ≤ getTime b.dateStart)
        (sortEvents getTime l) :=
    fun l => List.sorted_insertionSort _ l
  have hperm : ∀ l : List Event, List.Perm (sortEvents getTime l) l :=
    fun l => List.perm_insertionSort _ l
  set merged := phase1Merge prior fresh with hmerged
  set fin := (runSched (initSched merged) acts).events with hfin
  have hfinids : fin.map Event.id = merged.map Event.id :=
    runSched_events_map Event.id (fun e cs => rfl) (initSched merged) acts
  have hfincountry : fin.map Event.country = merged.map Event.country :=
    runSched_events_map Event.country (fun e cs => rfl) (initSched merged) acts
  have hcat1perm : List.Perm (replaceCountry getTime prior c merged)
      (prior.filter (fun e => e.country ≠ c) ++ merged) := hperm _
  have hcat1ids : ((replaceCountry getTime prior c merged).map Event.id).Nodup := by
    rw [(hcat1perm.map Event.id).nodup_iff, List.map_append]
    exact hids
  have hmc : ∀ e ∈ merged, e.country = c := phase1Merge_country prior fresh c hc
  have hfilter1 : (prior.filter (fun e => e.country ≠ c) ++ merged).filter
      (fun e => e.country ≠ c) = prior.filter (fun e => e.country ≠ c) := by
    rw [List.filter_append]
    have h1 : (prior.filter (fun e => e.country ≠ c)).filter (fun e => e.country ≠ c)
        = prior.filter (fun e => e.country ≠ c) :=
      List.filter_eq_self.mpr (fun a ha => (List.mem_filter.mp ha).2)
    have h2 : merged.filter (fun e => e.country ≠ c) = [] := by
      apply List.filter_eq_nil.mpr
      intro a ha
      simp [hmc a ha]
    rw [h1, h2, List.append_nil]
  have hcat2perm : List.Perm
      (replaceCountry getTime (replaceCountry getTime prior c merged) c fin)
      ((replaceCountry getTime prior c merged).filter (fun e => e.country ≠ c) ++ fin) :=
    hperm _
  have hfperm : List.Perm
      ((replaceCountry getTime prior c merged).filter (fun e => e.country ≠ c))
      (prior.filter (fun e => e.country ≠ c)) := by
    have := hcat1perm.filter (fun e => decide (e.country ≠ c))
    rw [hfilter1] at this
    exact this
  have hcat2ids : ((replaceCountry getTime (replaceCountry getTime prior c merged) c
      fin).map Event.id).Nodup := by
    rw [(hcat2perm.map Event.id).nodup_iff]
    rw [List.map_append, hfinids]
    rw [((hfperm.map Event.id).append_right (merged.map Event.id)).nodup_iff]
    exact hids
  exact ⟨hsort _, hcat1ids, hsort _, hcat2ids⟩

/-- C1, witness: an empty prior catalog and a single fresh event give a
catalog sorted and with unique ids after both phases. -/
theorem C1_witness :
    ((replaceCountry (fun _ => 0) [] Country.Thailand
      (phase1Merge [] [demoFresh])).map Event.id).Nodup ∧
    ((replaceCountry (fun _ => 0)
        (replaceCountry (fun _ => 0) [] Country.Thailand (phase1Merge [] [demoFresh]))
        Country.Thailand
        (runSched (initSched (phase1Merge [] [demoFresh])) []).events).map Event.id).Nodup := by
  have h := C1_merge_sorted_unique (fun _ => 0) [] Country.Thailand [demoFresh] []
    (by intro b hb; rw [List.mem_singleton.mp hb]; rfl) (by decide)
  exact ⟨h.2.1, h.2.2.2⟩

/-- C8: if list discovery fails, or returns an empty list, the discovery
run aborts with the failure surfaced, the catalog is exactly the prior
one, no persistence write happens and no event is enriched. -/
theorem C8_abort_on_failure_or_empty (getTime : String → Int) (prior : List Event)
    (c : Country) (acts : List SchedAction) (disc : Except String (List BasicEvent))
    (h : (∃ msg, disc = Except.error msg) ∨ disc = Except.ok []) :
    (discoveryRun getTime prior c disc acts).catalog = prior ∧
    (discoveryRun getTime prior c disc acts).writes = [] ∧
    (discoveryRun getTime prior c disc acts).enriched = [] ∧
    ∃ msg, (discoveryRun getTime prior c disc acts).result = Except.error msg := by
  rcases h with ⟨msg, rfl⟩ | rfl
  · exact ⟨rfl, rfl, rfl, msg, rfl⟩
  · exact ⟨rfl, rfl, rfl, "No events found. Please try again.", rfl⟩

/-- C8, witness: a failed discovery call leaves a concrete catalog
untouched with no writes. -/
theorem C8_witness :
    (discoveryRun (fun _ => 0) [demoEnrichedEvent] Country.Thailand
      (Except.error "network") []).catalog = [demoEnrichedEvent] ∧
    (discoveryRun (fun _ => 0) [demoEnrichedEvent] Country.Thailand
      (Except.error "network") []).writes = [] := by
  have h := C8_abort_on_failure_or_empty (fun _ => 0) [demoEnrichedEvent] Country.Thailand
    [] (Except.error "network") (Or.inl ⟨"network", rfl⟩)
  exact ⟨h.1, h.2.1⟩
